import Mathlib

/-!
Verification of the canvas-downloader crawl engine (src/main.rs) against its
natural-language specification.  Each Rust function relevant to the claims is
shallowly embedded as an executable Lean definition; theorems then settle the
claims.  Namespaces group the embedding by source component.
-/

namespace CanvasDL

/-! ## Admission/retry wrapper: `get_canvas_api` (src/main.rs lines 1456-1487)

The Rust loop is `for retry in 0..3`.  On each iteration it sends the request;
an `Err` from `send` is returned immediately; an `Ok(resp)` is returned when
`resp.status() != FORBIDDEN || retry == 2`; otherwise it sleeps a random
duration drawn from `0..1000 * 2u64.pow(retry)` milliseconds and retries.
The outcome of each attempt is modelled by the environment as a function from
the attempt index to the observed result. -/

/-- Outcome of one HTTP send attempt, as observed by `get_canvas_api`. -/
inductive Outcome where
  | resp (status : Nat)
  | err
deriving DecidableEq, Repr

/-- Result of the whole `get_canvas_api` call. -/
inductive CallResult where
  | ok (status : Nat)
  | networkErr
  | exhausted
deriving DecidableEq, Repr

/-- The half-open millisecond interval handed to the uniform sampler before the
retry numbered `retry`: `gen_range(0..1000 * 2_u64.pow(retry))`
(src/main.rs line 1481). -/
def backoffRangeMs (retry : Nat) : Nat × Nat :=
  (0, 1000 * 2 ^ retry)

/-- One run of the `for retry in 0..3` loop body starting at iteration `retry`,
with `remaining` the number of loop iterations still available (the loop runs
while `remaining > 0`, and `remaining + retry = 3` at every call from
`get_canvas_api`).  Returns the call result, the total number of attempts
issued (the `attempts` accumulator counts sends), and the list of backoff
intervals slept, in order.  Mirrors src/main.rs lines 1462-1486. -/
def runRetries (outcomes : Nat → Outcome) :
    Nat → Nat → Nat → List (Nat × Nat) → CallResult × Nat × List (Nat × Nat)
  | 0, _, attempts, sleeps => (CallResult.exhausted, attempts, sleeps)
  | remaining + 1, retry, attempts, sleeps =>
    match outcomes retry with
    | Outcome.resp s =>
        if s ≠ 403 ∨ retry = 2 then (CallResult.ok s, attempts + 1, sleeps)
        else runRetries outcomes remaining (retry + 1) (attempts + 1)
          (sleeps ++ [backoffRangeMs retry])
    | Outcome.err => (CallResult.networkErr, attempts + 1, sleeps)

/-- `get_canvas_api`: run the `for retry in 0..3` loop from iteration 0.  The
final `Err("canvas request failed")` after the loop corresponds to the
`CallResult.exhausted` case. -/
def get_canvas_api (outcomes : Nat → Outcome) : CallResult × Nat × List (Nat × Nat) :=
  runRetries outcomes 3 0 0 []

/-- Attempt-outcome environment delivering 403 on every attempt. -/
def allForbidden : Nat → Outcome := fun _ => Outcome.resp 403

/-- Environment delivering 403, 403, then 200. -/
def seq403x2then200 : Nat → Outcome := fun n =>
  if n < 2 then Outcome.resp 403 else Outcome.resp 200

/-! ## Change filter: `filter_files` (src/main.rs lines 1246-1284)

Paths are modelled as lists of components; `path.join name` appends one
component.  Timestamp strings are interpreted by a parse function
(`DateTime::parse_from_rfc3339` in the source), supplied as a parameter
together with the filename sanitizer (`sanitize_filename::sanitize`, an
external crate) and a snapshot of the local filesystem metadata. -/

/-- The fields of `canvas::File` that `filter_files` reads or writes. -/
structure CFile where
  display_name : String
  updated_at : String
  locked_for_user : Bool
  filepath : List String
deriving DecidableEq, Repr

/-- Local filesystem metadata as read by `filter_files`: existence of a path,
and its modification time when the `metadata(..)?.modified()?` chain succeeds. -/
structure FSMeta where
  pathExists : List String → Bool
  mtime : List String → Option Int

/-- The inner helper `updated` of `filter_files`: true iff the local metadata
and the remote timestamp both resolve and the local modification time is
strictly earlier; any error makes it false (`unwrap_or(false)`). -/
def updated (parse : String → Option Int) (fs : FSMeta)
    (filepath : List String) (new_modified : String) : Bool :=
  match fs.mtime filepath, parse new_modified with
  | some old_m, some new_m => decide (old_m < new_m)
  | _, _ => false

/-- The `map` stage of `filter_files`: assign the computed target path
`path.join(sanitize_filename::sanitize(display_name))`. -/
def assignPath (sanitize : String → String) (path : List String) (f : CFile) : CFile :=
  { f with filepath := path ++ [sanitize f.display_name] }

/-- `filter_files`: assign target paths, then keep only candidates that are not
locked, have a parsable `updated_at`, and either do not exist locally or are
updated while the `download_newer` policy is on.  The three `.filter` calls
mirror the source exactly. -/
def filter_files (parse : String → Option Int) (sanitize : String → String)
    (fs : FSMeta) (download_newer : Bool) (path : List String)
    (files : List CFile) : List CFile :=
  ((((files.map (assignPath sanitize path)).filter
      (fun f => !f.locked_for_user)).filter
      (fun f => (parse f.updated_at).isSome)).filter
      (fun f => !fs.pathExists f.filepath ||
        (updated parse fs f.filepath f.updated_at && download_newer)))

/-- The conjunction of the three filter predicates of `filter_files`. -/
def keepFile (parse : String → Option Int) (fs : FSMeta) (download_newer : Bool)
    (f : CFile) : Bool :=
  !f.locked_for_user && (parse f.updated_at).isSome &&
    (!fs.pathExists f.filepath ||
      (updated parse fs f.filepath f.updated_at && download_newer))

/-! ## Folder-name sanitizer: `sanitize_foldername` (src/main.rs lines 1447-1454)

The regex character class `[/\?<.">\\:\*\|":]` matches exactly the characters
`/ ? < . " > \ : * |`; `replace_all(.., "")` removes every occurrence, and
`.trim()` strips leading and trailing whitespace. -/

/-- Characters removed by the `sanitize_foldername` regex. -/
def badChar (c : Char) : Bool :=
  c = '/' || c = '?' || c = '<' || c = '.' || c = '"' || c = '>' ||
  c = '\\' || c = ':' || c = '*' || c = '|'

/-- Whitespace as stripped by `str::trim`. -/
def isWsChar (c : Char) : Bool := c.isWhitespace

/-- Drop trailing whitespace. -/
def rtrimChars (l : List Char) : List Char :=
  (l.reverse.dropWhile isWsChar).reverse

/-- Drop leading and trailing whitespace, as `str::trim` does. -/
def trimChars (l : List Char) : List Char :=
  rtrimChars (l.dropWhile isWsChar)

/-- `sanitize_foldername`: remove every regex-matched character, then trim. -/
def sanitize_foldername (s : String) : String :=
  ⟨trimChars (s.data.filter (fun c => !badChar c))⟩

/-! ## Paginator: `get_pages` (src/main.rs lines 1407-1445)

A response is modelled by an opaque body identifier plus the parsed `Link`
header relations (absent when the response has no `LINK` header or it is not
a string).  `parse_next_page` uses `rels.get("next")?` then
`rels.get("current").unwrap_or_else(panic)` then `rels.get("last")?`, so a
missing `next` or `last` stops pagination, a missing `current` (with both
others present) panics, `current == last` stops, and otherwise pagination
continues to the `next` URI. -/

/-- The `current`/`next`/`last` link-relation triple of one response. -/
structure LinkRels where
  next : Option String
  current : Option String
  last : Option String
deriving DecidableEq, Repr

/-- One fetched response: an opaque body id and the parsed link header. -/
structure PageResp where
  body : Nat
  link : Option LinkRels
deriving DecidableEq, Repr

/-- Decision of `parse_next_page`: `none` in the source means stop, `Some uri`
means continue; the `unwrap_or_else(panic!)` on a missing `current` is a
separate terminal case. -/
inductive NextPage where
  | stop
  | panics
  | continueTo (uri : String)
deriving DecidableEq, Repr

/-- `parse_next_page`, following the source's `?`-chain order exactly. -/
def parse_next_page (link : Option LinkRels) : NextPage :=
  match link with
  | none => NextPage.stop
  | some rels =>
    match rels.next with
    | none => NextPage.stop
    | some nex =>
      match rels.current with
      | none => NextPage.panics
      | some cur =>
        match rels.last with
        | none => NextPage.stop
        | some last =>
          if cur = last then NextPage.stop else NextPage.continueTo nex

/-- Failure modes of a `get_pages` run in the model: the loop never
terminating (out of fuel) or `parse_next_page` panicking. -/
inductive PagesError where
  | fuelOut
  | panicked
deriving DecidableEq, Repr

/-- `get_pages`: follow the continuation decision starting from `uri`,
pushing each response in fetch order.  `server` maps a URI to its response;
`fuel` bounds the number of iterations of the source's unbounded `while` loop. -/
def get_pages (server : String → PageResp) :
    Nat → String → Except PagesError (List PageResp)
  | 0, _ => Except.error PagesError.fuelOut
  | fuel + 1, uri =>
    let resp := server uri
    match parse_next_page resp.link with
    | NextPage.panics => Except.error PagesError.panicked
    | NextPage.stop => Except.ok [resp]
    | NextPage.continueTo nex => (get_pages server fuel nex).map (resp :: ·)

/-- The continuation rule exactly as the specification words it: stop when
`next` is absent, stop when `current == last`, otherwise continue to `next`.
Modelled from the spec for comparison against `parse_next_page`. -/
def claimedNextPage (link : Option LinkRels) : NextPage :=
  match link with
  | none => NextPage.stop
  | some rels =>
    match rels.next with
    | none => NextPage.stop
    | some nex =>
      if rels.current = rels.last then NextPage.stop else NextPage.continueTo nex

/-! ## Download engine: `atomic_download_file` / `download_file`
(src/main.rs lines 268-349)

The filesystem is a map from paths to entries (byte list plus modification
time).  The body stream's behaviour for one download is an environment
parameter: the send can fail, the status can be non-success, creating the temp
file can fail, the stream can break after writing a prefix of the bytes, or
the whole body can be written.  `set_file_mtime` failing is a further
environment flag. -/

/-- One on-disk file: its bytes and its modification time. -/
structure Entry where
  data : List Nat
  mtime : Int
deriving DecidableEq, Repr

/-- Filesystem contents, as a map from paths to entries. -/
def FS : Type := List String → Option Entry

/-- Write (create or truncate) an entry at a path. -/
def fsSet (fs : FS) (p : List String) (e : Entry) : FS :=
  fun q => if q = p then some e else fs q

/-- `std::fs::remove_file`: removing a missing file only logs, so the map
update is unconditional. -/
def fsRemove (fs : FS) (p : List String) : FS :=
  fun q => if q = p then none else fs q

/-- `filetime::set_file_mtime` on an existing path. -/
def fsSetMtime (fs : FS) (p : List String) (t : Int) : FS :=
  fun q => if q = p then (fs q).map (fun e => { e with mtime := t }) else fs q

/-- Environment-chosen outcome of the `download_file` request for one file. -/
inductive DlOutcome where
  | sendErr
  | badStatus
  | createFail
  | streamFail (partWritten : List Nat)
  | ok (bytes : List Nat)
deriving DecidableEq, Repr

/-- `download_file` (src/main.rs lines 305-349): on send error or non-success
status it fails before creating the temp file; on create failure it fails with
the filesystem unchanged; a broken stream leaves the partial bytes in the temp
file; success leaves the full body there.  `now` is the creation-time
modification time of the freshly written temp file. -/
def download_file (outcome : DlOutcome) (now : Int) (tmp : List String)
    (fs : FS) : Except Unit Unit × FS :=
  match outcome with
  | DlOutcome.sendErr => (Except.error (), fs)
  | DlOutcome.badStatus => (Except.error (), fs)
  | DlOutcome.createFail => (Except.error (), fs)
  | DlOutcome.streamFail part => (Except.error (), fsSet fs tmp ⟨part, now⟩)
  | DlOutcome.ok bytes => (Except.ok (), fsSet fs tmp ⟨bytes, now⟩)

/-- The temp path of `atomic_download_file`: pop the final component of the
target path and push `<hash(display_name)>.tmp`. -/
def tmpPath (hash : String → Nat) (f : CFile) : List String :=
  f.filepath.dropLast ++ [toString (hash f.display_name) ++ ".tmp"]

/-- `atomic_download_file` (src/main.rs lines 268-303).  A failed download
removes the temp file and fails.  After a successful download, the remote
`updated_at` is parsed with `?`, so an unparsable timestamp fails the task at
that point (no cleanup, no rename); `set_file_mtime` failure (`mtimeSetFails`)
is only logged; finally the temp file is renamed onto the target path. -/
def atomic_download_file (hash : String → Nat) (parse : String → Option Int)
    (outcome : DlOutcome) (mtimeSetFails : Bool) (now : Int)
    (f : CFile) (fs : FS) : Except Unit Unit × FS :=
  let tmp := tmpPath hash f
  match download_file outcome now tmp fs with
  | (Except.error _, fs1) => (Except.error (), fsRemove fs1 tmp)
  | (Except.ok _, fs1) =>
    match parse f.updated_at with
    | none => (Except.error (), fs1)
    | some t =>
      let fs2 := if mtimeSetFails then fs1 else fsSetMtime fs1 tmp t
      match fs2 tmp with
      | none => (Except.error (), fs2)
      | some e => (Except.ok (), fsSet (fsRemove fs2 tmp) f.filepath e)

/-! ## Task graph engine: `fork!` and `n_active_requests`
(src/main.rs lines 48-70, 211-255)

A run of the engine is a trace of spawn/complete events over task identifiers.
`fork!` performs `n_active_requests.fetch_add(1)` synchronously before
`tokio::spawn`, and the spawned body performs `fetch_sub(1)` once when the
wrapped future resolves — before inspecting whether its result was `Ok` or
`Err` — and calls `notify_main.notify_one()` exactly when the post-decrement
value is zero.  A trace is valid when every completion is of a task that was
spawned earlier and not yet completed, and no identifier is spawned twice;
this is precisely the set of traces `fork!` can generate, since the increment
precedes the task body and the decrement follows it. -/

/-- One scheduler event: `fork!` registering task `id` (the increment), or
task `id` finishing with result `ok` (the decrement). -/
inductive Event where
  | spawn (id : Nat)
  | complete (id : Nat) (ok : Bool)
deriving DecidableEq, Repr

/-- Effect of one event on `n_active_requests`, exactly as `fork!` performs
it: `fetch_add(1)` on spawn, `fetch_sub(1)` on completion (regardless of the
task's `Ok`/`Err` result). -/
def stepCounter (c : Nat) : Event → Nat
  | Event.spawn _ => c + 1
  | Event.complete _ _ => c - 1

/-- The value of `n_active_requests` after a trace, starting from `c`. -/
def counterFrom (c : Nat) (tr : List Event) : Nat :=
  tr.foldl stepCounter c

/-- Identifiers in spawn events, in order. -/
def spawnedIds (tr : List Event) : List Nat :=
  tr.filterMap (fun e => match e with
    | Event.spawn i => some i
    | Event.complete _ _ => none)

/-- Identifiers in completion events, in order. -/
def completedIds (tr : List Event) : List Nat :=
  tr.filterMap (fun e => match e with
    | Event.spawn _ => none
    | Event.complete i _ => some i)

/-- Trace validity, processed left to right with the multiset of running task
ids (`active`) and the list of already-completed ids (`completed`): a spawn
must use a fresh identifier, a completion must be of a running task. -/
def validFrom (active completed : List Nat) : List Event → Bool
  | [] => true
  | Event.spawn i :: tr =>
    !(active.contains i) && !(completed.contains i) &&
      validFrom (i :: active) completed tr
  | Event.complete i _ :: tr =>
    active.contains i && validFrom (active.erase i) (i :: completed) tr

/-- The running task ids after processing a trace from `active`. -/
def stepActive (a : List Nat) : Event → List Nat
  | Event.spawn i => i :: a
  | Event.complete i _ => a.erase i

/-- Fold of `stepActive` over a trace. -/
def activeAfter (a : List Nat) (tr : List Event) : List Nat :=
  tr.foldl stepActive a

/-- Number of `notify_one` calls fired while processing a trace with the
counter starting at `c`, exactly as the `fork!` body computes it: after each
decrement, notify iff the new value is zero. -/
def notifyCount (c : Nat) : List Event → Nat
  | [] => 0
  | Event.spawn _ :: tr => notifyCount (c + 1) tr
  | Event.complete _ _ :: tr =>
    (if c - 1 = 0 then 1 else 0) + notifyCount (c - 1) tr

/-- The number of decrements that bring the counter to zero: completion events
whose post-event counter value is zero, counted via the running prefixes of
the trace.  This is the specification-side description of when the wake signal
fires. -/
def zeroingCompletions (c : Nat) (tr : List Event) : Nat :=
  (List.range tr.length).countP (fun k =>
    (match tr.get? k with
      | some (Event.complete _ _) => true
      | _ => false) &&
    counterFrom c (tr.take (k + 1)) == 0)

/-! ## Admission bound: `sem_requests` and `process_html_links`
(src/main.rs lines 48-70, 127, 1286-1332)

`fork!`'s spawned body acquires one permit of the eight-permit semaphore
`sem_requests` before running the task function and holds it until the task
completes, so the running tasks are exactly the permit holders.  The state is
the list of running tasks, each recorded with the number of remote calls it
currently has in flight.  A plain task has at most one call in flight at a
time, but `process_html_links` awaits all of its extracted file links
concurrently through `futures::future::join_all`, all under the single permit
of that one task. -/

/-- Capacity of `sem_requests` (`tokio::sync::Semaphore::new(8)`,
src/main.rs line 127). -/
def semCapacity : Nat := 8

/-- Engine states: one entry per running (permit-holding) task, recording its
number of in-flight remote calls. -/
def EngineSt : Type := List Nat

/-- Total number of concurrently-executing remote calls. -/
def inflightCalls (s : EngineSt) : Nat := s.sum

/-- Transitions of the admission model.  `acquire` is a `fork!` task obtaining
a permit when one is free; `singleCall`/`endCall` bracket an ordinary awaited
remote call; `joinAllCalls k` is `process_html_links` issuing its `k`
extracted link requests concurrently via `join_all`; `settle` is those calls
resolving; `release` is a task completing and returning its permit. -/
inductive EngineStep : EngineSt → EngineSt → Prop
  | acquire (s : EngineSt) :
      s.length < semCapacity → EngineStep s (0 :: s)
  | singleCall (pre post : List Nat) :
      EngineStep (pre ++ 0 :: post) (pre ++ 1 :: post)
  | endCall (pre post : List Nat) (a : Nat) :
      EngineStep (pre ++ (a + 1) :: post) (pre ++ a :: post)
  | joinAllCalls (pre post : List Nat) (k : Nat) :
      EngineStep (pre ++ 0 :: post) (pre ++ k :: post)
  | release (pre post : List Nat) :
      EngineStep (pre ++ 0 :: post) (pre ++ post)

/-- States reachable from the idle engine (no task running). -/
def EngineReachable (s : EngineSt) : Prop :=
  Relation.ReflTransGen EngineStep [] s

/-! ## Concrete instances used to evaluate the embedding -/

/-- A concrete parse function mapping "t1" to time 1 and "t2" to time 2. -/
def parse0 : String → Option Int := fun s =>
  if s = "t1" then some 1 else if s = "t2" then some 2 else none

/-- A concrete sanitizer (identity). -/
def san0 : String → String := fun s => s

/-- Filesystem metadata with nothing on disk. -/
def fsAbsent : FSMeta := ⟨fun _ => false, fun _ => none⟩

/-- Candidate file "a" with timestamp "t1". -/
def fileA : CFile := ⟨"a", "t1", false, []⟩

/-- Candidate with the same display name as `fileA` but timestamp "t2", so it
aliases `fileA`'s computed target path. -/
def fileB : CFile := ⟨"a", "t2", false, []⟩

/-- Link relations with `next` and `current` present but `last` absent. -/
def relsLastMissing : LinkRels := ⟨some "p2", some "p1", none⟩

/-- Three-page server: page 3 carries a `next` link but its `current` equals
its `last`, so pagination must stop after page 3. -/
def server3 : String → PageResp := fun uri =>
  if uri = "p1" then ⟨1, some ⟨some "p2", some "p1", some "p3"⟩⟩
  else if uri = "p2" then ⟨2, some ⟨some "p3", some "p2", some "p3"⟩⟩
  else if uri = "p3" then ⟨3, some ⟨some "p4", some "p3", some "p3"⟩⟩
  else ⟨4, some ⟨none, some "p4", some "p4"⟩⟩

/-- Constant hash function for concrete download runs. -/
def hash0 : String → Nat := fun _ => 0

/-- Target file for the download runs: its timestamp parses under `parse0`. -/
def fileT : CFile := ⟨"a", "t1", false, ["d", "a"]⟩

/-- Target whose remote timestamp does not parse under `parse0`. -/
def fileBad : CFile := ⟨"b", "bad", false, ["d", "b"]⟩

/-- A filesystem holding an old version of `fileT`'s target. -/
def fsWithTarget : FS := fun p => if p = ["d", "a"] then some ⟨[7], 0⟩ else none

/-- The empty filesystem. -/
def fsEmpty : FS := fun _ => none

/-- A concrete valid scheduler trace: three tasks spawned and completed. -/
def tr0 : List Event :=
  [Event.spawn 0, Event.spawn 1, Event.complete 1 true,
    Event.spawn 2, Event.complete 2 false, Event.complete 0 true]

/-! # Theorems -/

/-! ## Admission/retry wrapper -/

/-- The number of attempts issued never exceeds the starting count plus the
remaining loop iterations. -/
theorem runRetries_attempts_le (o : Nat → Outcome) :
    ∀ remaining retry attempts sleeps,
    (runRetries o remaining retry attempts sleeps).2.1 ≤ attempts + remaining := by
  intro remaining
  induction remaining with
  | zero => intro retry attempts sleeps; simp [runRetries]
  | succ n ih =>
    intro retry attempts sleeps
    simp only [runRetries]
    split
    · split
      · simp
      · have := ih (retry + 1) (attempts + 1) (sleeps ++ [backoffRangeMs retry])
        omega
    · simp

/-- The post-loop `Err("canvas request failed")` is unreachable: the loop
always returns at `retry == 2`. -/
theorem runRetries_ne_exhausted (o : Nat → Outcome) :
    ∀ remaining retry attempts sleeps, 0 < remaining → remaining + retry = 3 →
    (runRetries o remaining retry attempts sleeps).1 ≠ CallResult.exhausted := by
  intro remaining
  induction remaining with
  | zero => intro retry attempts sleeps h; omega
  | succ n ih =>
    intro retry attempts sleeps _ hsum
    simp only [runRetries]
    split
    · split
      · simp
      · rename_i hcond
        have hretry : retry ≠ 2 := by tauto
        exact ih (retry + 1) (attempts + 1) (sleeps ++ [backoffRangeMs retry])
          (by omega) (by omega)
    · simp

/-- The backoff intervals slept are consecutive values of `backoffRangeMs`
starting at the initial retry index. -/
theorem runRetries_sleeps (o : Nat → Outcome) :
    ∀ remaining retry attempts sleeps, ∃ m,
    (runRetries o remaining retry attempts sleeps).2.2 =
      sleeps ++ (List.range' retry m).map backoffRangeMs := by
  intro remaining
  induction remaining with
  | zero =>
    intro retry attempts sleeps
    exact ⟨0, by simp [runRetries]⟩
  | succ n ih =>
    intro retry attempts sleeps
    simp only [runRetries]
    split
    · split
      · exact ⟨0, by simp⟩
      · obtain ⟨m, hm⟩ := ih (retry + 1) (attempts + 1) (sleeps ++ [backoffRangeMs retry])
        refine ⟨m + 1, ?_⟩
        rw [hm, List.range'_succ, List.map_cons]
        simp
    · exact ⟨0, by simp⟩

/-- An environment delivering 403 on the first three attempts yields the 403
response itself after exactly 3 attempts. -/
theorem get_canvas_api_all403 (o : Nat → Outcome)
    (h : ∀ k, k < 3 → o k = Outcome.resp 403) :
    get_canvas_api o = (CallResult.ok 403, 3, [(0, 1000), (0, 2000)]) := by
  have h0 := h 0 (by omega)
  have h1 := h 1 (by omega)
  have h2 := h 2 (by omega)
  simp [get_canvas_api, runRetries, h0, h1, h2, backoffRangeMs]

/-- Claim C2, amended: a 403,403,200 sequence succeeds with exactly 3
attempts; a run of consecutive 403s issues exactly 3 attempts total (2
retries) and then returns the final 403 response as an `Ok` value rather than
a terminal error; no call ever issues more than 3 attempts; the post-loop
terminal error is unreachable; terminal errors arise only from send errors,
which are returned immediately without retry. -/
theorem claim_c2_amended :
    ((get_canvas_api seq403x2then200).1 = CallResult.ok 200 ∧
      (get_canvas_api seq403x2then200).2.1 = 3) ∧
    (∀ o : Nat → Outcome, (∀ k, k < 3 → o k = Outcome.resp 403) →
      (get_canvas_api o).1 = CallResult.ok 403 ∧ (get_canvas_api o).2.1 = 3) ∧
    (∀ o : Nat → Outcome, (get_canvas_api o).2.1 ≤ 3) ∧
    (∀ o : Nat → Outcome, (get_canvas_api o).1 ≠ CallResult.exhausted) ∧
    (∀ o : Nat → Outcome, o 0 = Outcome.err →
      get_canvas_api o = (CallResult.networkErr, 1, [])) := by
  refine ⟨by decide, ?_, ?_, ?_, ?_⟩
  · intro o h
    rw [get_canvas_api_all403 o h]
    exact ⟨rfl, rfl⟩
  · intro o
    simpa using runRetries_attempts_le o 3 0 0 []
  · intro o
    exact runRetries_ne_exhausted o 3 0 0 [] (by omega) (by omega)
  · intro o h
    simp [get_canvas_api, runRetries, h]

/-- Witness for `claim_c2_amended` at the all-403 environment. -/
theorem claim_c2_amended_witness :
    (∀ k, k < 3 → allForbidden k = Outcome.resp 403) ∧
    (get_canvas_api allForbidden).1 = CallResult.ok 403 ∧
    (get_canvas_api allForbidden).2.1 = 3 :=
  ⟨fun _ _ => rfl, claim_c2_amended.2.1 allForbidden (fun _ _ => rfl)⟩

/-- Claim C2, counterexample: a sequence of consecutive 403s issues exactly 3
attempts (not 4) and returns the 403 response as a success value, not a
terminal error. -/
theorem claim_c2_counterexample :
    get_canvas_api allForbidden = (CallResult.ok 403, 3, [(0, 1000), (0, 2000)]) ∧
    (get_canvas_api allForbidden).2.1 ≠ 4 ∧
    (get_canvas_api allForbidden).1 ≠ CallResult.networkErr ∧
    (get_canvas_api allForbidden).1 ≠ CallResult.exhausted := by
  decide

/-- Claim C8: the backoff slept after the attempt numbered `k` (numbered from
0) is drawn from the half-open interval `[0, 2^k * 1000)` milliseconds —
`gen_range` samples uniformly from this argument range — whose lower endpoint
is 0, so there is no floor delay. -/
theorem claim_c8 (o : Nat → Outcome) (k : Nat) (x : Nat × Nat)
    (h : ((get_canvas_api o).2.2).get? k = some x) :
    x = (0, 2 ^ k * 1000) ∧ x.1 = 0 := by
  obtain ⟨m, hm⟩ := runRetries_sleeps o 3 0 0 []
  rw [get_canvas_api] at h
  rw [hm] at h
  simp only [List.nil_append, List.get?_map] at h
  rcases hr : (List.range' 0 m).get? k with _ | y
  · rw [hr] at h; simp at h
  · rw [hr] at h
    simp at h
    have hy : y = k := by
      have hlt : k < m := by
        by_contra hge
        rw [List.get?_eq_none.mpr (by simpa using Nat.le_of_not_lt hge)] at hr
        exact Option.noConfusion hr
      rw [List.get?_eq_get (by simpa using hlt)] at hr
      simp [List.get_range'] at hr
      omega
    subst hy
    constructor
    · rw [← h]; simp [backoffRangeMs]; ring
    · rw [← h]; simp [backoffRangeMs]

/-- Witness for `claim_c8`: the second sleep of the all-403 run. -/
theorem claim_c8_witness :
    ((get_canvas_api allForbidden).2.2).get? 1 = some (0, 2000) ∧
    ((0, 2000) : Nat × Nat) = (0, 2 ^ 1 * 1000) :=
  ⟨by decide, (claim_c8 allForbidden 1 (0, 2000) (by decide)).1⟩

/-! ## Folder-name sanitizer -/

/-- The head of a `dropWhile p` result never satisfies `p`. -/
theorem head?_dropWhile_false {p : Char → Bool} :
    ∀ {l : List Char} {c : Char}, ((l.dropWhile p).head? = some c) → p c = false := by
  intro l
  induction l with
  | nil => intro c h; simp [List.dropWhile] at h
  | cons a t ih =>
    intro c h
    by_cases hp : p a
    · rw [List.dropWhile_cons_of_pos hp] at h
      exact ih h
    · rw [List.dropWhile_cons_of_neg hp] at h
      simp at h
      subst h
      exact Bool.of_not_eq_true hp

/-- Trimming trailing whitespace yields a prefix of the input. -/
theorem rtrimChars_isPrefixOf (l : List Char) : rtrimChars l <+: l := by
  unfold rtrimChars
  rw [← List.reverse_reverse l]
  rw [ List.reverse_prefix]
  simp [List.dropWhile_suffix]

/-- Every character surviving `trimChars` came from the input. -/
theorem mem_trimChars {c : Char} {l : List Char} (h : c ∈ trimChars l) : c ∈ l := by
  unfold trimChars at h
  have h1 : c ∈ l.dropWhile isWsChar := (rtrimChars_isPrefixOf _).subset h
  exact (List.dropWhile_sublist _).subset h1

/-- The first character of a trimmed list is not whitespace. -/
theorem head?_trimChars {l : List Char} {c : Char}
    (h : (trimChars l).head? = some c) : isWsChar c = false := by
  unfold trimChars at h
  obtain ⟨r, hr⟩ := rtrimChars_isPrefixOf (l.dropWhile isWsChar)
  rcases he : rtrimChars (l.dropWhile isWsChar) with _ | ⟨a, t⟩
  · rw [he] at h; simp at h
  · rw [he] at h
    simp at h
    rw [he] at hr
    have hh : (l.dropWhile isWsChar).head? = some a := by
      rw [← hr]; simp
    have ha := head?_dropWhile_false hh
    rwa [h] at ha

/-- The last character of a trimmed list is not whitespace. -/
theorem getLast?_trimChars {l : List Char} {c : Char}
    (h : (trimChars l).getLast? = some c) : isWsChar c = false := by
  unfold trimChars rtrimChars at h
  rw [List.getLast?_reverse] at h
  exact head?_dropWhile_false h

/-- Claim C10: `sanitize_foldername` output contains none of the characters
`/ ? < . " > \ : * |`, has no leading or trailing whitespace, and in
particular contains no path separator, so a folder path built from it stays
inside its parent directory. -/
theorem claim_c10 (s : String) :
    (∀ c ∈ (sanitize_foldername s).data, badChar c = false) ∧
    (∀ c, (sanitize_foldername s).data.head? = some c → isWsChar c = false) ∧
    (∀ c, (sanitize_foldername s).data.getLast? = some c → isWsChar c = false) ∧
    (∀ c ∈ (sanitize_foldername s).data, c ≠ '/' ∧ c ≠ '\\') := by
  have hmem : ∀ c ∈ (sanitize_foldername s).data, badChar c = false := by
    intro c hc
    have h1 : c ∈ s.data.filter (fun c => !badChar c) := mem_trimChars hc
    have := List.of_mem_filter h1
    simpa using this
  refine ⟨hmem, ?_, ?_, ?_⟩
  · intro c hc
    exact head?_trimChars hc
  · intro c hc
    exact getLast?_trimChars hc
  · intro c hc
    have := hmem c hc
    unfold badChar at this
    simp at this
    tauto

/-- Witness for `claim_c10` on a concrete name. -/
theorem claim_c10_witness :
    (sanitize_foldername "  a/b.c:  ").data.head? = some 'a' ∧
    isWsChar 'a' = false ∧ badChar 'a' = false :=
  ⟨by decide, (claim_c10 "  a/b.c:  ").2.1 'a' (by decide),
    (claim_c10 "  a/b.c:  ").1 'a' (by decide)⟩

/-! ## Change filter -/

/-- `filter_files` is the map stage followed by one filter with the combined
predicate `keepFile`; each candidate is judged independently against the
unchanging filesystem snapshot. -/
theorem filter_files_eq (parse : String → Option Int) (san : String → String)
    (fs : FSMeta) (dn : Bool) (path : List String) (files : List CFile) :
    filter_files parse san fs dn path files =
      (files.map (assignPath san path)).filter (keepFile parse fs dn) := by
  unfold filter_files keepFile
  rw [List.filter_filter, List.filter_filter]
  congr 1
  funext a
  simp only [Bool.and_comm, Bool.and_left_comm, Bool.and_assoc]

/-- Claim C3: a locked candidate is never selected; a candidate with an
unparsable remote timestamp is dropped; an unlocked, parsable candidate whose
computed target path is absent locally is always selected; and when the target
path exists with a known modification time, the candidate is selected iff the
`download_newer` policy is on and the local modification time is strictly
earlier than the remote timestamp. -/
theorem claim_c3 (parse : String → Option Int) (san : String → String)
    (fs : FSMeta) (dn : Bool) (path : List String) (files : List CFile)
    (f : CFile) (hf : f ∈ files) :
    (f.locked_for_user = true →
      assignPath san path f ∉ filter_files parse san fs dn path files) ∧
    (parse f.updated_at = none →
      assignPath san path f ∉ filter_files parse san fs dn path files) ∧
    (f.locked_for_user = false → (parse f.updated_at).isSome →
      fs.pathExists (path ++ [san f.display_name]) = false →
      assignPath san path f ∈ filter_files parse san fs dn path files) ∧
    (∀ oldm newm : Int, f.locked_for_user = false →
      fs.pathExists (path ++ [san f.display_name]) = true →
      fs.mtime (path ++ [san f.display_name]) = some oldm →
      parse f.updated_at = some newm →
      (assignPath san path f ∈ filter_files parse san fs dn path files ↔
        (dn = true ∧ oldm < newm))) := by
  rw [filter_files_eq]
  refine ⟨?_, ?_, ?_, ?_⟩
  · intro hlock hmem
    have hk := (List.mem_filter.mp hmem).2
    simp [keepFile, assignPath, hlock] at hk
  · intro hparse hmem
    have hk := (List.mem_filter.mp hmem).2
    simp [keepFile, assignPath, hparse] at hk
  · intro hlock hparse hex
    refine List.mem_filter.mpr ⟨List.mem_map_of_mem _ hf, ?_⟩
    simp [keepFile, assignPath, hlock, hparse, hex]
  · intro oldm newm hlock hex hmt hparse
    rw [List.mem_filter]
    constructor
    · rintro ⟨-, hk⟩
      simp [keepFile, assignPath, hlock, hparse, hex, updated, hmt] at hk
      exact ⟨hk.2, hk.1⟩
    · rintro ⟨hdn, hlt⟩
      refine ⟨List.mem_map_of_mem _ hf, ?_⟩
      simp [keepFile, assignPath, hlock, hparse, hex, updated, hmt, hdn, hlt]

/-- Witness for `claim_c3`: an absent-locally candidate is selected. -/
theorem claim_c3_witness :
    fileA ∈ [fileA] ∧ fileA.locked_for_user = false ∧
    (parse0 fileA.updated_at).isSome = true ∧
    fsAbsent.pathExists (["d"] ++ [san0 fileA.display_name]) = false ∧
    assignPath san0 ["d"] fileA ∈ filter_files parse0 san0 fsAbsent false ["d"] [fileA] :=
  ⟨List.mem_singleton.mpr rfl, rfl, by decide, rfl,
    (claim_c3 parse0 san0 fsAbsent false ["d"] [fileA] fileA
      (List.mem_singleton.mpr rfl)).2.2.1 rfl (by decide) rfl⟩

/-- Claim C7, amended: the filter judges each candidate against the fixed
on-disk snapshot and performs no deduplication, so two candidates aliasing
the same absent target path are both selected; uniqueness of surviving target
paths is not guaranteed. -/
theorem claim_c7_amended (parse : String → Option Int) (san : String → String)
    (fs : FSMeta) (dn : Bool) (path : List String) :
    (∀ files, filter_files parse san fs dn path files =
      (files.map (assignPath san path)).filter (keepFile parse fs dn)) ∧
    (∀ f1 f2 : CFile,
      keepFile parse fs dn (assignPath san path f1) = true →
      keepFile parse fs dn (assignPath san path f2) = true →
      filter_files parse san fs dn path [f1, f2] =
        [assignPath san path f1, assignPath san path f2]) := by
  refine ⟨fun files => filter_files_eq parse san fs dn path files, ?_⟩
  intro f1 f2 h1 h2
  rw [filter_files_eq]
  simp [h1, h2]

/-- Witness for `claim_c7_amended`: two path-aliasing candidates both kept. -/
theorem claim_c7_amended_witness :
    keepFile parse0 fsAbsent false (assignPath san0 ["d"] fileA) = true ∧
    keepFile parse0 fsAbsent false (assignPath san0 ["d"] fileB) = true ∧
    (assignPath san0 ["d"] fileA).filepath = (assignPath san0 ["d"] fileB).filepath ∧
    filter_files parse0 san0 fsAbsent false ["d"] [fileA, fileB] =
      [assignPath san0 ["d"] fileA, assignPath san0 ["d"] fileB] :=
  ⟨by decide, by decide, rfl,
    (claim_c7_amended parse0 san0 fsAbsent false ["d"]).2 fileA fileB
      (by decide) (by decide)⟩

/-- Claim C7, counterexample: two candidates with the same computed target
path are both selected — the filter does not resolve the tie, so the
survivors' target paths are not unique. -/
theorem claim_c7_counterexample :
    (filter_files parse0 san0 fsAbsent false ["d"] [fileA, fileB]).length = 2 ∧
    ((filter_files parse0 san0 fsAbsent false ["d"] [fileA, fileB]).get? 0).map
        CFile.filepath = some ["d", "a"] ∧
    ((filter_files parse0 san0 fsAbsent false ["d"] [fileA, fileB]).get? 1).map
        CFile.filepath = some ["d", "a"] := by
  decide

/-! ## Paginator -/

/-- Claim C4, counterexample: with `next` and `current` present but `last`
absent, the code stops, while the claimed continuation rule continues to the
`next` URI. -/
theorem claim_c4_counterexample :
    parse_next_page (some relsLastMissing) = NextPage.stop ∧
    claimedNextPage (some relsLastMissing) = NextPage.continueTo "p2" ∧
    parse_next_page (some relsLastMissing) ≠ claimedNextPage (some relsLastMissing) := by
  decide

/-- Claim C4, amended: pagination stops when the response carries no parsed
link header, no `next` relation, or no `last` relation; with `next` present
but `current` absent it panics; with all three present it stops iff
`current = last` and otherwise continues to the `next` URI; `get_pages`
returns pages in fetch order, the current page preceding all later ones; and
in the three-page scenario where page 3's `current` equals its `last` while a
`next` link is still present, exactly pages 1-3 are returned. -/
theorem claim_c4_amended (server : String → PageResp) :
    (parse_next_page none = NextPage.stop) ∧
    (∀ rels : LinkRels, rels.next = none →
      parse_next_page (some rels) = NextPage.stop) ∧
    (∀ (rels : LinkRels) (u : String), rels.next = some u → rels.current = none →
      parse_next_page (some rels) = NextPage.panics) ∧
    (∀ (rels : LinkRels) (u cur : String), rels.next = some u →
      rels.current = some cur → rels.last = none →
      parse_next_page (some rels) = NextPage.stop) ∧
    (∀ (rels : LinkRels) (u cur l : String), rels.next = some u →
      rels.current = some cur → rels.last = some l →
      parse_next_page (some rels) =
        (if cur = l then NextPage.stop else NextPage.continueTo u)) ∧
    (∀ (fuel : Nat) (uri : String),
      (parse_next_page (server uri).link = NextPage.stop →
        get_pages server (fuel + 1) uri = Except.ok [server uri]) ∧
      (∀ nex, parse_next_page (server uri).link = NextPage.continueTo nex →
        get_pages server (fuel + 1) uri =
          (get_pages server fuel nex).map (server uri :: ·))) ∧
    (get_pages server3 9 "p1" =
      Except.ok [⟨1, some ⟨some "p2", some "p1", some "p3"⟩⟩,
        ⟨2, some ⟨some "p3", some "p2", some "p3"⟩⟩,
        ⟨3, some ⟨some "p4", some "p3", some "p3"⟩⟩]) := by
  refine ⟨rfl, ?_, ?_, ?_, ?_, ?_, by rfl⟩
  · rintro ⟨n, c, l⟩ h
    simp at h
    subst h
    rfl
  · rintro ⟨n, c, l⟩ u h1 h2
    simp at h1 h2
    subst h1; subst h2
    rfl
  · rintro ⟨n, c, l⟩ u cur h1 h2 h3
    simp at h1 h2 h3
    subst h1; subst h2; subst h3
    rfl
  · rintro ⟨n, c, l⟩ u cur lst h1 h2 h3
    simp at h1 h2 h3
    subst h1; subst h2; subst h3
    rfl
  · intro fuel uri
    constructor
    · intro h
      simp [get_pages, h]
    · intro nex h
      simp [get_pages, h]

/-- Witness for `claim_c4_amended`: a continuing page. -/
theorem claim_c4_amended_witness :
    (⟨some "u2", some "a", some "b"⟩ : LinkRels).next = some "u2" ∧
    parse_next_page (some ⟨some "u2", some "a", some "b"⟩) =
      (if "a" = "b" then NextPage.stop else NextPage.continueTo "u2") :=
  ⟨rfl, (claim_c4_amended server3).2.2.2.2.1 ⟨some "u2", some "a", some "b"⟩
    "u2" "a" "b" rfl rfl rfl⟩

/-! ## Download engine -/

/-- The temp file lives in the same directory as the final target. -/
theorem tmpPath_dropLast (hash : String → Nat) (f : CFile) :
    (tmpPath hash f).dropLast = f.filepath.dropLast := by
  simp [tmpPath]

/-- Claim C5, amended: a download failing in the Fetching or Writing phase
removes the temp file and fails the task, and the final target path's entry is
unchanged — in particular, if the target was absent before, it is absent
afterwards and no partial bytes are observable there; a successful download
with a parsable timestamp commits the downloaded bytes by renaming the temp
file — located in the same directory as the target — onto the target path. -/
theorem claim_c5_amended (hash : String → Nat) (parse : String → Option Int)
    (mt : Bool) (now : Int) (f : CFile) (fs : FS)
    (hne : f.filepath ≠ tmpPath hash f) :
    (∀ outcome : DlOutcome,
      (outcome = DlOutcome.sendErr ∨ outcome = DlOutcome.badStatus ∨
        outcome = DlOutcome.createFail ∨
        ∃ part, outcome = DlOutcome.streamFail part) →
      (atomic_download_file hash parse outcome mt now f fs).1 = Except.error () ∧
      (atomic_download_file hash parse outcome mt now f fs).2 (tmpPath hash f) = none ∧
      (atomic_download_file hash parse outcome mt now f fs).2 f.filepath = fs f.filepath) ∧
    (∀ (bytes : List Nat) (t : Int), parse f.updated_at = some t →
      (atomic_download_file hash parse (DlOutcome.ok bytes) mt now f fs).1 =
        Except.ok () ∧
      ((atomic_download_file hash parse (DlOutcome.ok bytes) mt now f fs).2
        f.filepath).map Entry.data = some bytes ∧
      (atomic_download_file hash parse (DlOutcome.ok bytes) mt now f fs).2
        (tmpPath hash f) = none) ∧
    (tmpPath hash f).dropLast = f.filepath.dropLast := by
  have hne2 : tmpPath hash f ≠ f.filepath := Ne.symm hne
  refine ⟨?_, ?_, tmpPath_dropLast hash f⟩
  · rintro outcome (rfl | rfl | rfl | ⟨part, rfl⟩) <;>
      simp [atomic_download_file, download_file, fsRemove, fsSet, hne]
  · intro bytes t hparse
    cases mt <;>
      simp [atomic_download_file, download_file, fsRemove, fsSet, fsSetMtime,
        hparse, hne, hne2]

/-- Witness for `claim_c5_amended`: a failed fetch leaves the target alone. -/
theorem claim_c5_amended_witness :
    fileT.filepath ≠ tmpPath hash0 fileT ∧
    (atomic_download_file hash0 parse0 DlOutcome.badStatus false 5 fileT
      fsWithTarget).2 fileT.filepath = fsWithTarget fileT.filepath :=
  ⟨by decide,
    ((claim_c5_amended hash0 parse0 false 5 fileT fsWithTarget (by decide)).1
      DlOutcome.badStatus (Or.inr (Or.inl rfl))).2.2⟩

/-- Claim C5, counterexample: when the target already exists (an update
download), a stream failure leaves the old file at the final target path, so
"the final target path does not exist afterward" is false. -/
theorem claim_c5_counterexample :
    (atomic_download_file hash0 parse0 (DlOutcome.streamFail [1]) false 5 fileT
      fsWithTarget).1 = Except.error () ∧
    (atomic_download_file hash0 parse0 (DlOutcome.streamFail [1]) false 5 fileT
      fsWithTarget).2 ["d", "a"] = some ⟨[7], 0⟩ ∧
    (atomic_download_file hash0 parse0 (DlOutcome.streamFail [1]) false 5 fileT
      fsWithTarget).2 (tmpPath hash0 fileT) = none := by
  refine ⟨rfl, rfl, rfl⟩

/-- Claim C6, amended: after a successful write, a failure of
`set_file_mtime` is only logged and the rename commit still happens; but a
failure to parse the remote `updated_at` is fatal — the task fails, the
commit does not take place, and the temp file is left in place. -/
theorem claim_c6_amended (hash : String → Nat) (parse : String → Option Int)
    (mt : Bool) (now : Int) (f : CFile) (fs : FS)
    (hne : f.filepath ≠ tmpPath hash f) :
    (∀ (bytes : List Nat) (t : Int), parse f.updated_at = some t →
      (atomic_download_file hash parse (DlOutcome.ok bytes) true now f fs).1 =
        Except.ok () ∧
      (atomic_download_file hash parse (DlOutcome.ok bytes) true now f fs).2
        f.filepath = some ⟨bytes, now⟩ ∧
      (atomic_download_file hash parse (DlOutcome.ok bytes) true now f fs).2
        (tmpPath hash f) = none) ∧
    (∀ bytes : List Nat, parse f.updated_at = none →
      (atomic_download_file hash parse (DlOutcome.ok bytes) mt now f fs).1 =
        Except.error () ∧
      (atomic_download_file hash parse (DlOutcome.ok bytes) mt now f fs).2
        f.filepath = fs f.filepath ∧
      (atomic_download_file hash parse (DlOutcome.ok bytes) mt now f fs).2
        (tmpPath hash f) = some ⟨bytes, now⟩) := by
  have hne2 : tmpPath hash f ≠ f.filepath := Ne.symm hne
  constructor
  · intro bytes t hparse
    simp [atomic_download_file, download_file, fsRemove, fsSet, hparse, hne, hne2]
  · intro bytes hparse
    simp [atomic_download_file, download_file, fsRemove, fsSet, hparse, hne, hne2]

/-- Witness for `claim_c6_amended`: commit happens despite mtime failure. -/
theorem claim_c6_amended_witness :
    parse0 fileT.updated_at = some 1 ∧
    (atomic_download_file hash0 parse0 (DlOutcome.ok [9]) true 5 fileT
      fsEmpty).1 = Except.ok () :=
  ⟨by decide,
    ((claim_c6_amended hash0 parse0 false 5 fileT fsEmpty (by decide)).1
      [9] 1 (by decide)).1⟩

/-- Claim C6, counterexample: an unparsable remote timestamp after a
successful write makes the task fail, the rename does not happen, and the
temp file is left behind — the Finalizing step is not best-effort in its
parsing half. -/
theorem claim_c6_counterexample :
    (atomic_download_file hash0 parse0 (DlOutcome.ok [9]) false 5 fileBad
      fsEmpty).1 = Except.error () ∧
    (atomic_download_file hash0 parse0 (DlOutcome.ok [9]) false 5 fileBad
      fsEmpty).2 fileBad.filepath = none ∧
    (atomic_download_file hash0 parse0 (DlOutcome.ok [9]) false 5 fileBad
      fsEmpty).2 (tmpPath hash0 fileBad) = some ⟨[9], 5⟩ := by
  refine ⟨rfl, rfl, rfl⟩

/-! ## Admission bound -/

/-- Every engine step preserves the permit bound on running tasks. -/
theorem engineStep_length_le {s t : EngineSt} (h : EngineStep s t)
    (hs : s.length ≤ semCapacity) : t.length ≤ semCapacity := by
  cases h with
  | acquire s hlt => simpa using hlt
  | singleCall pre post => simpa using hs
  | endCall pre post a => simpa using hs
  | joinAllCalls pre post k => simpa using hs
  | release pre post => simp at hs ⊢; omega

/-- Reachable engine states never hold more than `semCapacity` permits. -/
theorem engineReachable_length_le (s : EngineSt) (h : EngineReachable s) :
    s.length ≤ semCapacity := by
  induction h with
  | refl => simp [semCapacity, List.length]
  | @tail b c hR hstep ih => exact engineStep_length_le hstep ih

/-- A single task can reach any number of in-flight calls via `join_all`. -/
theorem engineReachable_single (k : Nat) : EngineReachable [k] := by
  have h1 : EngineStep [] [0] := EngineStep.acquire [] (by simp [semCapacity])
  have h2 : EngineStep [0] [k] := by
    have h := EngineStep.joinAllCalls [] [] k
    simpa using h
  exact Relation.ReflTransGen.head h1 (Relation.ReflTransGen.single h2)

/-- Claim C9, amended: the eight-permit semaphore bounds the number of
concurrently running tasks by 8, but a single running task can carry any
number of concurrently-executing remote calls (issued together by
`process_html_links` through `join_all` under its one permit), so the permits
do not bound concurrent remote calls. -/
theorem claim_c9_amended :
    (∀ s : EngineSt, EngineReachable s → s.length ≤ semCapacity) ∧
    (∀ k : Nat, EngineReachable [k] ∧ inflightCalls [k] = k) := by
  refine ⟨engineReachable_length_le, fun k => ⟨engineReachable_single k, ?_⟩⟩
  simp [inflightCalls]

/-- Witness for `claim_c9_amended` at a reachable 9-call state. -/
theorem claim_c9_amended_witness :
    EngineReachable [9] ∧ ([9] : EngineSt).length ≤ semCapacity :=
  ⟨(claim_c9_amended.2 9).1, claim_c9_amended.1 [9] (claim_c9_amended.2 9).1⟩

/-- Claim C9, counterexample: a reachable state with one running task carrying
9 concurrent remote calls exceeds the claimed bound K = 8. -/
theorem claim_c9_counterexample :
    EngineReachable [9] ∧ inflightCalls [9] = 9 ∧ semCapacity = 8 ∧
    semCapacity < inflightCalls [9] :=
  ⟨engineReachable_single 9, rfl, rfl, by decide⟩

/-! ## Task graph engine -/

/-- Unfolding of `counterFrom` over one event. -/
theorem counterFrom_cons (c : Nat) (e : Event) (t : List Event) :
    counterFrom c (e :: t) = counterFrom (stepCounter c e) t := rfl

/-- Unfolding of `activeAfter` over one event. -/
theorem activeAfter_cons (a : List Nat) (e : Event) (t : List Event) :
    activeAfter a (e :: t) = activeAfter (stepActive a e) t := rfl

/-- Spawn events prepend their id to `spawnedIds`. -/
theorem spawnedIds_spawn (i : Nat) (t : List Event) :
    spawnedIds (Event.spawn i :: t) = i :: spawnedIds t := rfl

/-- Completion events leave `spawnedIds` unchanged. -/
theorem spawnedIds_complete (i : Nat) (ok : Bool) (t : List Event) :
    spawnedIds (Event.complete i ok :: t) = spawnedIds t := rfl

/-- Spawn events leave `completedIds` unchanged. -/
theorem completedIds_spawn (i : Nat) (t : List Event) :
    completedIds (Event.spawn i :: t) = completedIds t := rfl

/-- Completion events prepend their id to `completedIds`. -/
theorem completedIds_complete (i : Nat) (ok : Bool) (t : List Event) :
    completedIds (Event.complete i ok :: t) = i :: completedIds t := rfl

/-- Destructor for validity of a trace beginning with a spawn. -/
theorem validFrom_spawn {a c : List Nat} {i : Nat} {t : List Event}
    (h : validFrom a c (Event.spawn i :: t) = true) :
    i ∉ a ∧ i ∉ c ∧ validFrom (i :: a) c t = true := by
  simp only [validFrom] at h
  simp at h
  exact ⟨h.1.1, h.1.2, h.2⟩

/-- Destructor for validity of a trace beginning with a completion. -/
theorem validFrom_complete {a c : List Nat} {i : Nat} {ok : Bool} {t : List Event}
    (h : validFrom a c (Event.complete i ok :: t) = true) :
    i ∈ a ∧ validFrom (a.erase i) (i :: c) t = true := by
  simp only [validFrom] at h
  simp at h
  exact ⟨h.1, h.2⟩

/-- The counter tracks the number of running tasks exactly. -/
theorem validFrom_counter (tr : List Event) : ∀ (a c : List Nat),
    validFrom a c tr = true →
    counterFrom a.length tr = (activeAfter a tr).length := by
  induction tr with
  | nil => intro a c _; rfl
  | cons e t ih =>
    intro a c h
    cases e with
    | spawn i =>
      obtain ⟨h1, h2, h3⟩ := validFrom_spawn h
      have := ih (i :: a) c h3
      simpa [counterFrom_cons, activeAfter_cons, stepCounter, stepActive] using this
    | complete i ok =>
      obtain ⟨h1, h2⟩ := validFrom_complete h
      have := ih (a.erase i) (i :: c) h2
      rw [counterFrom_cons, activeAfter_cons]
      simp only [stepCounter, stepActive]
      rwa [List.length_erase_of_mem h1] at this

/-- A running task that is no longer running at the end of a valid trace has
completed within it. -/
theorem validFrom_completed_of_not_active (tr : List Event) :
    ∀ (a c : List Nat) (i : Nat), validFrom a c tr = true →
    i ∈ a → i ∉ activeAfter a tr → i ∈ completedIds tr := by
  induction tr with
  | nil => intro a c i _ hmem hnot; exact absurd hmem hnot
  | cons e t ih =>
    intro a c i h hmem hnot
    cases e with
    | spawn j =>
      obtain ⟨h1, h2, h3⟩ := validFrom_spawn h
      rw [completedIds_spawn]
      rw [activeAfter_cons] at hnot
      exact ih (j :: a) c i h3 (List.mem_cons_of_mem j hmem) hnot
    | complete j ok =>
      obtain ⟨h1, h2⟩ := validFrom_complete h
      rw [completedIds_complete]
      by_cases hij : i = j
      · exact hij ▸ List.mem_cons_self i _
      · rw [activeAfter_cons] at hnot
        exact List.mem_cons_of_mem j
          (ih (a.erase j) (j :: c) i h2 ((List.mem_erase_of_ne hij).mpr hmem) hnot)

/-- An id that is running or already completed is never spawned again. -/
theorem validFrom_not_spawned (tr : List Event) :
    ∀ (a c : List Nat) (i : Nat), validFrom a c tr = true →
    (i ∈ a ∨ i ∈ c) → i ∉ spawnedIds tr := by
  induction tr with
  | nil => intro a c i _ _; simp [spawnedIds]
  | cons e t ih =>
    intro a c i h hmem
    cases e with
    | spawn j =>
      obtain ⟨h1, h2, h3⟩ := validFrom_spawn h
      rw [spawnedIds_spawn]
      intro hin
      rcases List.mem_cons.mp hin with rfl | hin
      · rcases hmem with ha | hc
        · exact h1 ha
        · exact h2 hc
      · have : i ∈ (j :: a) ∨ i ∈ c := by
          rcases hmem with ha | hc
          · exact Or.inl (List.mem_cons_of_mem j ha)
          · exact Or.inr hc
        exact ih (j :: a) c i h3 this hin
    | complete j ok =>
      obtain ⟨h1, h2⟩ := validFrom_complete h
      rw [spawnedIds_complete]
      have : i ∈ a.erase j ∨ i ∈ j :: c := by
        rcases hmem with ha | hc
        · by_cases hij : i = j
          · exact Or.inr (hij ▸ List.mem_cons_self i _)
          · exact Or.inl ((List.mem_erase_of_ne hij).mpr ha)
        · exact Or.inr (List.mem_cons_of_mem j hc)
      exact ih (a.erase j) (j :: c) i h2 this

/-- In a valid trace, every task id is spawned at most once. -/
theorem validFrom_spawned_nodup (tr : List Event) :
    ∀ (a c : List Nat), validFrom a c tr = true → (spawnedIds tr).Nodup := by
  induction tr with
  | nil => intro a c _; simp [spawnedIds]
  | cons e t ih =>
    intro a c h
    cases e with
    | spawn i =>
      obtain ⟨h1, h2, h3⟩ := validFrom_spawn h
      rw [spawnedIds_spawn]
      refine List.nodup_cons.mpr ⟨?_, ih (i :: a) c h3⟩
      exact validFrom_not_spawned t (i :: a) c i h3 (Or.inl (List.mem_cons_self i a))
    | complete i ok =>
      obtain ⟨h1, h2⟩ := validFrom_complete h
      rw [spawnedIds_complete]
      exact ih (a.erase i) (i :: c) h2

/-- An already-completed id that is not running never completes again. -/
theorem validFrom_not_completed (tr : List Event) :
    ∀ (a c : List Nat) (i : Nat), validFrom a c tr = true →
    i ∈ c → i ∉ a → i ∉ completedIds tr := by
  induction tr with
  | nil => intro a c i _ _ _; simp [completedIds]
  | cons e t ih =>
    intro a c i h hc ha
    cases e with
    | spawn j =>
      obtain ⟨h1, h2, h3⟩ := validFrom_spawn h
      rw [completedIds_spawn]
      have hij : i ≠ j := fun hij => h2 (hij ▸ hc)
      refine ih (j :: a) c i h3 hc ?_
      intro hin
      rcases List.mem_cons.mp hin with heq | hin
      · exact hij heq
      · exact ha hin
    | complete j ok =>
      obtain ⟨h1, h2⟩ := validFrom_complete h
      rw [completedIds_complete]
      have hij : i ≠ j := fun hij => ha (hij ▸ h1)
      intro hin
      rcases List.mem_cons.mp hin with heq | hin
      · exact hij heq
      · exact ih (a.erase j) (j :: c) i h2 (List.mem_cons_of_mem j hc)
          (fun hmem => ha (List.mem_of_mem_erase hmem)) hin

/-- In a valid trace, every task id completes at most once. -/
theorem validFrom_completed_nodup (tr : List Event) :
    ∀ (a c : List Nat), validFrom a c tr = true → a.Nodup →
    (∀ i ∈ a, i ∉ c) → (completedIds tr).Nodup := by
  induction tr with
  | nil => intro a c _ _ _; simp [completedIds]
  | cons e t ih =>
    intro a c h hnd hdisj
    cases e with
    | spawn i =>
      obtain ⟨h1, h2, h3⟩ := validFrom_spawn h
      rw [completedIds_spawn]
      refine ih (i :: a) c h3 (List.nodup_cons.mpr ⟨h1, hnd⟩) ?_
      intro j hj
      rcases List.mem_cons.mp hj with rfl | hj
      · exact h2
      · exact hdisj j hj
    | complete i ok =>
      obtain ⟨h1, h2⟩ := validFrom_complete h
      rw [completedIds_complete]
      refine List.nodup_cons.mpr ⟨?_, ?_⟩
      · exact validFrom_not_completed t (a.erase i) (i :: c) i h2
          (List.mem_cons_self i c) (hnd.not_mem_erase)
      · refine ih (a.erase i) (i :: c) h2 (hnd.erase i) ?_
        intro j hj hjc
        have hja : j ∈ a := List.mem_of_mem_erase hj
        have hji : j ≠ i := by
          intro hji
          subst hji
          exact hnd.not_mem_erase hj
        rcases List.mem_cons.mp hjc with heq | hjc
        · exact hji heq
        · exact hdisj j hja hjc

/-- Every completion in a valid trace is of an initially running or spawned
task. -/
theorem validFrom_completed_sub (tr : List Event) :
    ∀ (a c : List Nat), validFrom a c tr = true →
    ∀ i ∈ completedIds tr, i ∈ a ∨ i ∈ spawnedIds tr := by
  induction tr with
  | nil => intro a c _ i hi; simp [completedIds] at hi
  | cons e t ih =>
    intro a c h i hi
    cases e with
    | spawn j =>
      obtain ⟨h1, h2, h3⟩ := validFrom_spawn h
      rw [completedIds_spawn] at hi
      rw [spawnedIds_spawn]
      rcases ih (j :: a) c h3 i hi with hja | hsp
      · rcases List.mem_cons.mp hja with rfl | hja
        · exact Or.inr (List.mem_cons_self i _)
        · exact Or.inl hja
      · exact Or.inr (List.mem_cons_of_mem j hsp)
    | complete j ok =>
      obtain ⟨h1, h2⟩ := validFrom_complete h
      rw [completedIds_complete] at hi
      rw [spawnedIds_complete]
      rcases List.mem_cons.mp hi with rfl | hi
      · exact Or.inl h1
      · rcases ih (a.erase j) (j :: c) h2 i hi with hja | hsp
        · exact Or.inl (List.mem_of_mem_erase hja)
        · exact Or.inr hsp

/-- Counter bookkeeping: the counter plus the completions equals the initial
task count plus the spawns. -/
theorem validFrom_counter_add (tr : List Event) :
    ∀ (a c : List Nat), validFrom a c tr = true →
    counterFrom a.length tr + (completedIds tr).length =
      a.length + (spawnedIds tr).length := by
  induction tr with
  | nil => intro a c _; simp [counterFrom, completedIds, spawnedIds]
  | cons e t ih =>
    intro a c h
    cases e with
    | spawn i =>
      obtain ⟨h1, h2, h3⟩ := validFrom_spawn h
      have := ih (i :: a) c h3
      rw [counterFrom_cons, completedIds_spawn, spawnedIds_spawn]
      simp only [stepCounter]
      simp only [List.length_cons] at this
      rw [List.length_cons]
      omega
    | complete i ok =>
      obtain ⟨h1, h2⟩ := validFrom_complete h
      have := ih (a.erase i) (i :: c) h2
      have hlen : (a.erase i).length = a.length - 1 := List.length_erase_of_mem h1
      have hpos : 0 < a.length := List.length_pos.mpr (List.ne_nil_of_mem h1)
      rw [counterFrom_cons, completedIds_complete, spawnedIds_complete]
      simp only [stepCounter]
      rw [hlen] at this
      rw [List.length_cons]
      omega

/-- Every spawned task has either completed or is still running at the end. -/
theorem validFrom_spawned_mem (tr : List Event) :
    ∀ (a c : List Nat) (i : Nat), validFrom a c tr = true →
    i ∈ spawnedIds tr → i ∈ completedIds tr ∨ i ∈ activeAfter a tr := by
  induction tr with
  | nil => intro a c i _ hi; simp [spawnedIds] at hi
  | cons e t ih =>
    intro a c i h hi
    cases e with
    | spawn j =>
      obtain ⟨h1, h2, h3⟩ := validFrom_spawn h
      rw [spawnedIds_spawn] at hi
      rw [completedIds_spawn, activeAfter_cons]
      rcases List.mem_cons.mp hi with rfl | hi
      · by_cases hact : i ∈ activeAfter (stepActive a (Event.spawn i)) t
        · exact Or.inr hact
        · exact Or.inl (validFrom_completed_of_not_active t (i :: a) c i h3
            (List.mem_cons_self i a) hact)
      · exact ih (j :: a) c i h3 hi
    | complete j ok =>
      obtain ⟨h1, h2⟩ := validFrom_complete h
      rw [spawnedIds_complete] at hi
      rw [completedIds_complete, activeAfter_cons]
      rcases ih (a.erase j) (j :: c) i h2 hi with hc | ha
      · exact Or.inl (List.mem_cons_of_mem j hc)
      · exact Or.inr ha

/-- One-step unfolding of `zeroingCompletions`. -/
theorem zeroingCompletions_cons (cnt : Nat) (e : Event) (t : List Event) :
    zeroingCompletions cnt (e :: t) =
      (if (match e with
          | Event.complete _ _ => true
          | Event.spawn _ => false) && (stepCounter cnt e == 0) then 1 else 0) +
        zeroingCompletions (stepCounter cnt e) t := by
  unfold zeroingCompletions
  rw [List.length_cons, List.range_succ_eq_map]
  rw [List.countP_cons, List.countP_map]
  have hzero :
      ((match (e :: t).get? 0 with
        | some (Event.complete _ _) => true
        | _ => false) &&
        (counterFrom cnt ((e :: t).take (0 + 1)) == 0)) =
      ((match e with
        | Event.complete _ _ => true
        | Event.spawn _ => false) && (stepCounter cnt e == 0)) := by
    cases e <;> simp [counterFrom, stepCounter]
  have hshift : ∀ k : Nat,
      ((fun k =>
        (match (e :: t).get? k with
          | some (Event.complete _ _) => true
          | _ => false) &&
        (counterFrom cnt ((e :: t).take (k + 1)) == 0)) ∘ Nat.succ) k =
      (fun k =>
        (match t.get? k with
          | some (Event.complete _ _) => true
          | _ => false) &&
        (counterFrom (stepCounter cnt e) (t.take (k + 1)) == 0)) k := by
    intro k
    simp only [Function.comp]
    rw [List.get?_cons_succ, List.take_succ_cons, counterFrom_cons]
  rw [List.countP_congr (fun k _ => by rw [hshift k])]
  rw [hzero]
  omega

/-- The `notify_one` count of the `fork!` body equals the number of
completion events whose post-decrement counter value is zero. -/
theorem notifyCount_eq_zeroing (tr : List Event) :
    ∀ cnt : Nat, notifyCount cnt tr = zeroingCompletions cnt tr := by
  induction tr with
  | nil => intro cnt; rfl
  | cons e t ih =>
    intro cnt
    rw [zeroingCompletions_cons]
    cases e with
    | spawn i =>
      simp only [notifyCount, stepCounter, Bool.false_and]
      rw [ih (cnt + 1)]
      simp
    | complete i ok =>
      simp only [notifyCount, stepCounter, Bool.true_and]
      rw [ih (cnt - 1)]
      by_cases hz : cnt - 1 = 0
      · simp [hz]
      · simp [hz]

/-- Claim C1: over every valid scheduler trace, each task id is spawned
exactly once and completes at most once; every completion is of a spawned
task; the counter `n_active_requests` equals the spawns minus the
completions; the wake signal fires exactly at the decrements that bring the
counter to zero; the decrement is the same whether the task's result was `Ok`
or `Err`; and the counter reaches zero only once every spawned task — hence
the transitive closure of spawns — has completed. -/
theorem claim_c1 (tr : List Event) (h : validFrom [] [] tr = true) :
    (spawnedIds tr).Nodup ∧
    (completedIds tr).Nodup ∧
    (∀ i ∈ completedIds tr, i ∈ spawnedIds tr) ∧
    counterFrom 0 tr + (completedIds tr).length = (spawnedIds tr).length ∧
    (counterFrom 0 tr = 0 → ∀ i ∈ spawnedIds tr, i ∈ completedIds tr) ∧
    notifyCount 0 tr = zeroingCompletions 0 tr ∧
    (∀ (c i : Nat),
      stepCounter c (Event.complete i true) = stepCounter c (Event.complete i false)) := by
  refine ⟨validFrom_spawned_nodup tr [] [] h,
    validFrom_completed_nodup tr [] [] h (List.nodup_nil) (by simp),
    ?_, ?_, ?_, notifyCount_eq_zeroing tr 0, fun c i => rfl⟩
  · intro i hi
    rcases validFrom_completed_sub tr [] [] h i hi with ha | hs
    · simp at ha
    · exact hs
  · have := validFrom_counter_add tr [] [] h
    simpa using this
  · intro hzero i hi
    have hc := validFrom_counter tr [] [] h
    simp only [List.length_nil] at hc
    rw [hzero] at hc
    have hempty : activeAfter [] tr = [] :=
      List.length_eq_zero.mp hc.symm
    rcases validFrom_spawned_mem tr [] [] i h hi with hcm | ham
    · exact hcm
    · rw [hempty] at ham
      simp at ham

/-- Witness for `claim_c1` on the concrete trace `tr0`. -/
theorem claim_c1_witness :
    validFrom [] [] tr0 = true ∧
    notifyCount 0 tr0 = zeroingCompletions 0 tr0 ∧
    counterFrom 0 tr0 + (completedIds tr0).length = (spawnedIds tr0).length :=
  ⟨by decide, (claim_c1 tr0 (by decide)).2.2.2.2.2.1,
    (claim_c1 tr0 (by decide)).2.2.2.1⟩

end CanvasDL
